import Mathlib

/-
Shallow embedding of the IPC daemon described in the "IPC From Scratch" and
"Hijacking PipeWire for Fun and Profit" posts (the `mixd` daemon of the
Mixologist project).  The Odin fragments quoted in the posts are transliterated
here: file descriptors are `Nat`, the `core:container/small_array` operations
become list operations with an explicit capacity, and the event-loop branches
become total Lean functions on explicit state.
-/

namespace Mixd

/-- The POSIX error numbers that the daemon's event loop distinguishes. -/
inductive Errno
  | EAGAIN
  | EWOULDBLOCK
  | EINTR
  | ECONNABORTED
  | EMFILE
  | EBADF
deriving DecidableEq, Repr

/-- Transliteration of `sa.append` for `core:container/small_array`: the
element is pushed only when the array is below capacity; on a full array the
call is a silent no-op (it returns `false`, a value the event-loop code
ignores). -/
def sa_append (cap : Nat) (l : List Nat) (x : Nat) : List Nat :=
  if l.length < cap then l ++ [x] else l

/-- Transliteration of `sa.unordered_remove`: the slot at `i` is overwritten
with the last element and the length shrinks by one (swap-remove). -/
def unordered_remove (l : List Nat) (i : Nat) : List Nat :=
  match l.getLast? with
  | none => []
  | some x => (l.set i x).dropLast

/-- The `act` field of the `Volume` message variant. -/
inductive VolumeAct
  | Set
  | Shift
  | Get
  | Subscribe
deriving DecidableEq, Repr

/-- The `act` field of the `Program` message variant. -/
inductive ProgramAct
  | Add
  | Remove
deriving DecidableEq, Repr

/-- The `Volume` message variant.  `val` is the 32-bit pattern of the `f32`
payload, kept as a `Nat` below `2 ^ 32`. -/
structure Volume where
  act : VolumeAct
  val : Nat
deriving DecidableEq, Repr

/-- The `Program` message variant.  `val` is the string payload as a byte
sequence. -/
structure Program where
  act : ProgramAct
  val : List Nat
deriving DecidableEq, Repr

/-- The tagged union `Message :: union { Volume, Program }`. -/
inductive Message
  | ofVolume (v : Volume)
  | ofProgram (p : Program)
deriving DecidableEq, Repr

/-- Well-formedness of a message: the float payload is a 32-bit pattern and
the string payload is a byte string shorter than `2 ^ 32`. -/
def Message.wf : Message → Bool
  | .ofVolume v => v.val < 2 ^ 32
  | .ofProgram p => p.val.length < 2 ^ 32 && p.val.all (fun b => b < 256)

/-- Numeric tag of a `VolumeAct`, in declaration order. -/
def vact_code : VolumeAct → Nat
  | .Set => 0
  | .Shift => 1
  | .Get => 2
  | .Subscribe => 3

/-- Numeric tag of a `ProgramAct`, in declaration order. -/
def pact_code : ProgramAct → Nat
  | .Add => 0
  | .Remove => 1

/-- Inverse of `vact_code` on tags below 4. -/
def vact_of : Nat → VolumeAct
  | 0 => .Set
  | 1 => .Shift
  | 2 => .Get
  | _ => .Subscribe

/-- Inverse of `pact_code` on tags below 2. -/
def pact_of : Nat → ProgramAct
  | 0 => .Add
  | _ => .Remove

/-- Big-endian 4-byte encoding of a 32-bit value. -/
def be32 (n : Nat) : List Nat :=
  [n / 2 ^ 24 % 256, n / 2 ^ 16 % 256, n / 2 ^ 8 % 256, n % 256]

/-- Value of a big-endian 4-byte sequence. -/
def be32_val : List Nat → Nat
  | [a, b, c, d] => a * 2 ^ 24 + b * 2 ^ 16 + c * 2 ^ 8 + d
  | _ => 0

/-- Modelled from the spec: the Message Codec.  The daemon serializes with
`cbor.marshal` from Odin's `core:encoding/cbor` library, whose implementation
is not part of this repository; following the spec's contract the model is a
self-describing binary encoding of the tagged union: a variant tag byte, an
action tag byte, then the payload (the 4 payload-pattern bytes for `Volume`;
a 4-byte big-endian length followed by the string bytes for `Program`). -/
def encode : Message → List Nat
  | .ofVolume v => 0 :: vact_code v.act :: be32 v.val
  | .ofProgram p => 1 :: pact_code p.act :: (be32 p.val.length ++ p.val)

/-- The three outcomes the spec requires `decode` to distinguish: a complete
message together with the exact byte count it occupied, an incomplete input,
or bytes that can never become a valid encoding. -/
inductive DecodeResult
  | complete (msg : Message) (consumed : Nat)
  | incomplete
  | malformed
deriving DecidableEq, Repr

/-- Decoding of the bytes following a `Volume` variant tag: an action byte
and the 4 payload bytes. -/
def decode_volume : List Nat → DecodeResult
  | [] => .incomplete
  | a :: body =>
    if a < 4 then
      if body.length < 4 then .incomplete
      else .complete (.ofVolume ⟨vact_of a, be32_val (body.take 4)⟩) 6
    else .malformed

/-- Decoding of the bytes following a `Program` variant tag: an action byte,
a 4-byte big-endian string length, then that many string bytes. -/
def decode_program : List Nat → DecodeResult
  | [] => .incomplete
  | a :: body =>
    if a < 2 then
      if body.length < 4 then .incomplete
      else
        if (body.drop 4).length < be32_val (body.take 4) then .incomplete
        else
          .complete (.ofProgram ⟨pact_of a, (body.drop 4).take (be32_val (body.take 4))⟩)
            (6 + be32_val (body.take 4))
    else .malformed

/-- Modelled from the spec: the decoding half of the Message Codec
(`cbor.unmarshal` in the source, an Odin core library that is not part of
this repository).  It consumes exactly one message from the front of the
buffer, reports how many bytes it occupied, reports `incomplete` when bytes
are missing, and reports `malformed` only on a tag byte that no valid
encoding can carry.  Nothing is consumed on `incomplete`. -/
def decode : List Nat → DecodeResult
  | [] => .incomplete
  | tag :: rest =>
    if tag = 0 then decode_volume rest
    else if tag = 1 then decode_program rest
    else .malformed

/-- Outcome of one pass through the accept branch of the event loop. -/
inductive AcceptOutcome
  | panicked
  | running (clients : List Nat) (closed : List Nat)
deriving DecidableEq, Repr

/-- The accept branch of the event loop: when slot 0 reports read-readiness
the server calls `linux.accept`; any accept error reaches
`log.panicf("accept error %v", client_err)`, and a successful accept is
appended to `ctx._clients` with `sa.append`, whose failure on a full table is
silently ignored.  No descriptor is ever closed on this path, which the
`closed` component records. -/
def accept_phase (server_ready : Bool) (accept_result : Except Errno Nat)
    (cap : Nat) (clients : List Nat) : AcceptOutcome :=
  if server_ready then
    match accept_result with
    | .error _ => .panicked
    | .ok client_fd => .running (sa_append cap clients client_fd) []
  else .running clients []

/-- What the Running loop does right after `linux.poll` returns. -/
inductive LoopControl
  | exitLoop
  | panicked
  | continueCycle
deriving DecidableEq, Repr

/-- The poll prologue of the Running loop:
`_, poll_err := linux.poll(sa.slice(&ctx._clients), 5)` followed by
`if poll_err != nil && mixd_ctx.should_exit do return` and
`else if poll_err != nil do log.panicf("poll error: %v", poll_err)`.
The shutdown flag is consulted only on the error path of poll. -/
def poll_phase (poll_err : Option Errno) (should_exit : Bool) : LoopControl :=
  if poll_err.isSome && should_exit then .exitLoop
  else if poll_err.isSome then .panicked
  else .continueCycle

/-- The state the `IPC_Server_Context` struct keeps for connection and
subscriber management (the scratch read buffer and the listening-socket
fields play no role in the claims below). -/
structure IPC_Server_Context where
  _clients : List Nat
  _removed_clients : List Nat
  _volume_subscribers : List Nat
deriving DecidableEq, Repr

/-- The `.Subscribe` arm of the `Volume` handler: a `slice.linear_search`
over `_volume_subscribers` followed by `sa.append` only when the descriptor
was absent. -/
def subscribe_handler (cap : Nat) (subs : List Nat) (client_fd : Nat) : List Nat :=
  if client_fd ∈ subs then subs else sa_append cap subs client_fd

/-- The `common.Volume` arm of the message dispatch switch.  Only the
`.Subscribe` action touches the server's connection/subscriber state; the
other actions act on the audio state and the reply path, which live outside
this state. -/
def handle_volume (cap : Nat) (ctx : IPC_Server_Context) (client_fd : Nat)
    (msg : Volume) : IPC_Server_Context :=
  match msg.act with
  | .Subscribe =>
    { ctx with
      _volume_subscribers := subscribe_handler cap ctx._volume_subscribers client_fd }
  | .Set => ctx
  | .Shift => ctx
  | .Get => ctx

/-- Result of `linux.read` on a client socket: either a byte string (empty on
a peer close) or an error number. -/
inductive ReadResult
  | bytes (buf : List Nat)
  | fail (e : Errno)
deriving DecidableEq, Repr

/-- Removal condition of the client read branch: a zero-length read
(`bytes_read == 0`) or a read error other than EWOULDBLOCK/EAGAIN schedules
the connection for removal; a would-block result only skips the client. -/
def is_dead : ReadResult → Bool
  | .bytes b => b.isEmpty
  | .fail e => !(e == .EWOULDBLOCK || e == .EAGAIN)

/-- The messages dispatched for one successful read on a client connection:
the source runs `cbor.unmarshal(string(buf[:bytes_read]), &msg)` once per
read, with no loop over the remaining buffered bytes, so at most one message
is produced per read. -/
def messages_dispatched (buf : List Nat) : List Message :=
  match decode buf with
  | .complete m _ => [m]
  | _ => []

/-- Result of the `#reverse` sweep over the client slots: the surviving
table, the descriptors appended to `_removed_clients`, and every entry the
sweep visited, in visit order. -/
structure SweepResult where
  remaining : List Nat
  removed : List Nat
  visited : List Nat
deriving DecidableEq, Repr

/-- The `#reverse for &client, idx in sa.slice(&ctx._clients)[1:]` loop over
the client slots, restricted to the removal bookkeeping: positions
`n - 1, …, 0` are visited in that order; a visit to a dead client runs
`sa.unordered_remove` at its slot and appends its descriptor to the removal
list.  (In the source the loop runs over the slice past slot 0 and removes at
`idx + 1`; the model works directly on the client entries, with the same
indices shifted down by one.) -/
def reverse_sweep (p : Nat → Bool) : List Nat → Nat → SweepResult
  | l, 0 => ⟨l, [], []⟩
  | l, n + 1 =>
    match l[n]? with
    | none => ⟨l, [], []⟩
    | some x =>
      if p x then
        let r := reverse_sweep p (unordered_remove l n) n
        ⟨r.remaining, x :: r.removed, x :: r.visited⟩
      else
        let r := reverse_sweep p l n
        ⟨r.remaining, r.removed, x :: r.visited⟩

/-- Transliteration of `IPC_Server_remove_volume_subscriber`, whose body the
posts do not quote.  Modelled from the spec: `unsubscribe_all(ConnectionId)`
removes the handle from the topic's subscriber set. -/
def IPC_Server_remove_volume_subscriber (subs : List Nat) (fd : Nat) : List Nat :=
  subs.filter (fun s => s != fd)

/-- The end-of-cycle cleanup loop
`for fd in sa.slice(&ctx._removed_clients) { IPC_Server_remove_volume_subscriber(ctx, fd); linux.close(fd) }`.
The returned list is the set of descriptors passed to `linux.close`.
Modelled from the spec: the pending-removal list is cleared once the loop has
run (the posts elide this reset; the spec's Pending-Removal List invariant
requires it before the next poll call). -/
def process_removed_clients (ctx : IPC_Server_Context) : IPC_Server_Context × List Nat :=
  (⟨ctx._clients, [],
    ctx._removed_clients.foldl IPC_Server_remove_volume_subscriber ctx._volume_subscribers⟩,
   ctx._removed_clients)

/-- One poll cycle's removal work: the reverse sweep over the client slots
discovers dead connections (removing them from the table and queueing them on
`_removed_clients`), then the cleanup loop unsubscribes and closes each
queued descriptor. -/
def run_poll_cycle_removals (read_of : Nat → ReadResult) (ctx : IPC_Server_Context) :
    IPC_Server_Context × List Nat :=
  let s := reverse_sweep (fun fd => is_dead (read_of fd)) ctx._clients ctx._clients.length
  process_removed_clients
    ⟨s.remaining, ctx._removed_clients ++ s.removed, ctx._volume_subscribers⟩

/-! ## Codec lemmas -/

theorem be32_length (n : Nat) : (be32 n).length = 4 := rfl

theorem be32_val_be32 (n : Nat) (h : n < 2 ^ 32) : be32_val (be32 n) = n := by
  simp only [be32, be32_val]
  omega

theorem vact_of_code (a : VolumeAct) : vact_of (vact_code a) = a := by
  cases a <;> rfl

theorem pact_of_code (a : ProgramAct) : pact_of (pact_code a) = a := by
  cases a <;> rfl

theorem vact_code_lt (a : VolumeAct) : vact_code a < 4 := by
  cases a <;> decide

theorem pact_code_lt (a : ProgramAct) : pact_code a < 2 := by
  cases a <;> decide

/-- Decoding a well-formed encoded message with arbitrary trailing bytes
yields that message and consumes exactly its own encoding length, leaving the
trailing bytes untouched. -/
theorem decode_encode_append (m : Message) (rest : List Nat) (h : m.wf = true) :
    decode (encode m ++ rest) = .complete m (encode m).length := by
  cases m with
  | ofVolume v =>
    obtain ⟨a, n⟩ := v
    have hn : n < 2 ^ 32 := by simpa [Message.wf] using h
    have hlen : ((be32 n ++ rest).length < 4) = False := by
      simp [be32]
    simp only [encode, List.cons_append, decode, if_pos rfl, decode_volume,
      if_pos (vact_code_lt a), hlen, if_false,
      List.take_left' (be32_length n), be32_val_be32 n hn, vact_of_code a]
    simp [be32]
  | ofProgram p =>
    obtain ⟨a, s⟩ := p
    have hs : s.length < 2 ^ 32 := by
      have := h
      simp [Message.wf] at this
      exact this.1
    have hlen : ((be32 s.length ++ (s ++ rest)).length < 4) = False := by
      simp [be32]
    have htake : (be32 s.length ++ (s ++ rest)).take 4 = be32 s.length :=
      List.take_left' (be32_length s.length)
    have hdrop : (be32 s.length ++ (s ++ rest)).drop 4 = s ++ rest :=
      List.drop_left' (be32_length s.length)
    have h01 : (1 = 0) = False := by simp
    simp only [encode, List.cons_append, List.append_assoc, decode, h01, if_false,
      if_pos rfl, decode_program, if_pos (pact_code_lt a), hlen,
      htake, hdrop, be32_val_be32 s.length hs]
    have hlen2 : ((s ++ rest).length < s.length) = False := by simp
    simp only [hlen2, if_false, List.take_left s rest, pact_of_code a]
    simp only [encode, List.length_cons, List.length_append, be32_length, if_true]
    congr 1
    omega

/-- C4 helper at `rest = []`. -/
theorem decode_encode (m : Message) (h : m.wf = true) :
    decode (encode m) = .complete m (encode m).length := by
  simpa using decode_encode_append m [] h

/-- C3: every byte sequence that is a strict prefix of the encoding of a
well-formed message decodes to the incomplete outcome — never malformed,
never a complete (hence possibly wrong) message; `decode` consumes nothing
on this outcome, so the caller's buffered data survives for a retry. -/
theorem decode_short_input_incomplete (m : Message) (k : Nat) (hm : m.wf = true)
    (hk : k < (encode m).length) :
    decode ((encode m).take k) = .incomplete := by
  cases m with
  | ofVolume v =>
    obtain ⟨a, n⟩ := v
    have h6 : (encode (Message.ofVolume ⟨a, n⟩)).length = 6 := by
      simp [encode, be32]
    rw [h6] at hk
    cases a <;> interval_cases k <;>
      simp [encode, be32, decode, decode_volume, vact_code]
  | ofProgram p =>
    obtain ⟨a, s⟩ := p
    have hs : s.length < 2 ^ 32 := by
      have := hm
      simp [Message.wf] at this
      exact this.1
    have hlen : (encode (Message.ofProgram ⟨a, s⟩)).length = 6 + s.length := by
      simp [encode, be32]
      omega
    rw [hlen] at hk
    rcases k with _ | _ | j
    · simp [decode]
    · cases a <;> simp [encode, be32, decode, decode_program, pact_code]
    · have hck : encode (Message.ofProgram ⟨a, s⟩) =
          1 :: pact_code a :: (be32 s.length ++ s) := rfl
      rw [hck]
      simp only [List.take_succ_cons]
      have hd : decode (1 :: pact_code a :: (be32 s.length ++ s).take j) =
          decode_program (pact_code a :: (be32 s.length ++ s).take j) := by
        simp [decode]
      rw [hd]
      have hT : (be32 s.length ++ s).length = 4 + s.length := by
        simp [be32]
        omega
      simp only [decode_program, if_pos (pact_code_lt a)]
      by_cases hj : j < 4
      · have hbl : ((be32 s.length ++ s).take j).length < 4 := by
          rw [List.length_take, hT]
          omega
        rw [if_pos hbl]
      · have hjs : j < 4 + s.length := by omega
        have hbl : ¬ ((be32 s.length ++ s).take j).length < 4 := by
          rw [List.length_take, hT]
          omega
        rw [if_neg hbl]
        have htake4 : ((be32 s.length ++ s).take j).take 4 = be32 s.length := by
          rw [List.take_take, Nat.min_eq_left (by omega : 4 ≤ j)]
          exact List.take_left' (be32_length s.length)
        have hdrop4 : ((be32 s.length ++ s).take j).drop 4 = s.take (j - 4) := by
          rw [List.drop_take, List.drop_left' (be32_length s.length)]
        rw [htake4, be32_val_be32 s.length hs, hdrop4]
        have hj4 : j - 4 < s.length := by omega
        have hfin : (s.take (j - 4)).length < s.length := by
          rw [List.length_take, Nat.min_eq_left (Nat.le_of_lt hj4)]
          exact hj4
        rw [if_pos hfin]

/-! ## Claim theorems: codec and read dispatch -/

/-- C4: for every well-formed message `m`, `encode m` succeeds (it is a total
function) and decoding it yields exactly `m` together with a consumed-byte
count equal to the full length of the encoding. -/
theorem decode_encode_roundtrip (m : Message) (h : m.wf = true) :
    decode (encode m) = .complete m (encode m).length :=
  decode_encode m h

theorem decode_encode_roundtrip_witness :
    (Message.ofVolume ⟨.Subscribe, 0⟩).wf = true ∧
      decode (encode (Message.ofVolume ⟨.Subscribe, 0⟩)) =
        .complete (Message.ofVolume ⟨.Subscribe, 0⟩)
          (encode (Message.ofVolume ⟨.Subscribe, 0⟩)).length :=
  ⟨by decide, decode_encode_roundtrip (Message.ofVolume ⟨.Subscribe, 0⟩) (by decide)⟩

theorem decode_short_input_incomplete_witness :
    (Message.ofProgram ⟨.Add, [65]⟩).wf = true ∧
      4 < (encode (Message.ofProgram ⟨.Add, [65]⟩)).length ∧
      decode ((encode (Message.ofProgram ⟨.Add, [65]⟩)).take 4) = .incomplete :=
  ⟨by decide, by decide,
    decode_short_input_incomplete (Message.ofProgram ⟨.Add, [65]⟩) 4 (by decide) (by decide)⟩

/-- C2 (counterexample): two complete messages arriving in one read are not
both dispatched — the single `cbor.unmarshal` call per read produces only the
first, so the dispatched list differs from the claimed two-message list. -/
theorem two_messages_single_read_cex :
    messages_dispatched
        (encode (Message.ofVolume ⟨.Subscribe, 0⟩) ++ encode (Message.ofVolume ⟨.Set, 1⟩)) =
      [Message.ofVolume ⟨.Subscribe, 0⟩] ∧
    [Message.ofVolume ⟨.Subscribe, 0⟩] ≠
      [Message.ofVolume ⟨.Subscribe, 0⟩, Message.ofVolume ⟨.Set, 1⟩] :=
  ⟨by decide, by decide⟩

/-- C2 (amended): when a single read returns the bytes of two complete
messages back-to-back, the server decodes and dispatches only the first one —
the codec runs once per read, and the second message's bytes are not
dispatched. -/
theorem single_read_dispatches_first_only (m1 m2 : Message) (h : m1.wf = true) :
    messages_dispatched (encode m1 ++ encode m2) = [m1] := by
  simp [messages_dispatched, decode_encode_append m1 (encode m2) h]

theorem single_read_dispatches_first_only_witness :
    (Message.ofVolume ⟨.Get, 7⟩).wf = true ∧
      messages_dispatched
          (encode (Message.ofVolume ⟨.Get, 7⟩) ++ encode (Message.ofProgram ⟨.Remove, [66]⟩)) =
        [Message.ofVolume ⟨.Get, 7⟩] :=
  ⟨by decide, single_read_dispatches_first_only _ _ (by decide)⟩

/-! ## Claim theorems: accept branch -/

/-- C1 (counterexample): with the listening socket ready, an accept failure
with ECONNABORTED — an error other than would-block — does not log-and-continue:
it reaches `log.panicf` and halts the daemon. -/
theorem accept_error_panics_cex :
    accept_phase true (.error .ECONNABORTED) 4 [10, 11] = .panicked := by
  decide

/-- C1 (amended): every accept failure, would-block included, reaches
`log.panicf("accept error %v", client_err)`: a failed accept always halts the
Running loop instead of being logged and skipped. -/
theorem accept_error_always_panics (e : Errno) (cap : Nat) (clients : List Nat) :
    accept_phase true (.error e) cap clients = .panicked := rfl

/-- C5 (counterexample): accepting client 99 while the table already holds its
configured maximum (4 entries here) leaves every existing connection's state
unchanged, but the new connection is not closed — the accept branch closes no
descriptor, so 99 is leaked rather than refused-by-close. -/
theorem accept_at_capacity_no_close_cex :
    accept_phase true (.ok 99) 4 [10, 11, 12, 13] = .running [10, 11, 12, 13] [] ∧
      (99 : Nat) ∉ ([] : List Nat) :=
  ⟨by decide, by decide⟩

/-- C5 (amended): when a connection is accepted at a full table, `sa.append`
is a silent no-op: the server does not block, the table and all existing
connections' state are unchanged — but the new descriptor is not closed (it is
simply dropped from tracking and leaks). -/
theorem accept_at_capacity_drops_silently (cap : Nat) (clients : List Nat) (fd : Nat)
    (h : clients.length = cap) :
    accept_phase true (.ok fd) cap clients = .running clients [] := by
  simp [accept_phase, sa_append, h]

theorem accept_at_capacity_drops_silently_witness :
    ([10, 11, 12, 13] : List Nat).length = 4 ∧
      accept_phase true (.ok 99) 4 [10, 11, 12, 13] = .running [10, 11, 12, 13] [] :=
  ⟨rfl, accept_at_capacity_drops_silently 4 [10, 11, 12, 13] 99 rfl⟩

/-! ## Claim theorems: poll prologue -/

/-- C9 (counterexample): when poll returns without error (activity or clean
timeout) while the shutdown flag is set, the Running loop does not leave —
the short-circuit `poll_err != nil && mixd_ctx.should_exit` never consults the
flag on a clean poll return. -/
theorem poll_ok_ignores_shutdown_cex :
    poll_phase none true = .continueCycle ∧ LoopControl.continueCycle ≠ .exitLoop :=
  ⟨rfl, by decide⟩

/-- C9 (amended): the shutdown flag is observed only on the error path of
poll: a poll error with the flag set leaves the Running loop, a poll error
without it panics, and an error-free poll return continues the cycle without
consulting the flag. -/
theorem shutdown_only_on_poll_error :
    (∀ e : Errno, poll_phase (some e) true = .exitLoop) ∧
      (∀ b : Bool, poll_phase none b = .continueCycle) ∧
      (∀ e : Errno, poll_phase (some e) false = .panicked) :=
  ⟨fun _ => rfl, fun _ => rfl, fun _ => rfl⟩

/-! ## Claim theorems: subscriptions -/

/-- C7: handling Subscribe twice for the same connection is not an error and
is idempotent — the second call leaves the subscriber list unchanged, and
from any state not yet containing the descriptor (with a free slot) the list
ends up with exactly one entry for it. -/
theorem subscribe_idempotent :
    (∀ (cap : Nat) (subs : List Nat) (fd : Nat),
        subscribe_handler cap (subscribe_handler cap subs fd) fd =
          subscribe_handler cap subs fd) ∧
      (∀ (cap : Nat) (subs : List Nat) (fd : Nat), fd ∉ subs → subs.length < cap →
        (subscribe_handler cap (subscribe_handler cap subs fd) fd).count fd = 1) := by
  constructor
  · intro cap subs fd
    by_cases h : fd ∈ subs
    · simp [subscribe_handler, h]
    · by_cases hlen : subs.length < cap
      · have hmem : fd ∈ sa_append cap subs fd := by simp [sa_append, hlen]
        simp [subscribe_handler, h, hmem]
      · have hid : sa_append cap subs fd = subs := by simp [sa_append, hlen]
        simp [subscribe_handler, h, hid]
  · intro cap subs fd h hlen
    have happ : subscribe_handler cap subs fd = subs ++ [fd] := by
      simp [subscribe_handler, h, sa_append, hlen]
    have hmem : fd ∈ subs ++ [fd] := by simp
    rw [happ]
    simp [subscribe_handler, hmem, List.count_append, List.count_eq_zero.mpr h]

theorem subscribe_idempotent_witness :
    subscribe_handler 4 (subscribe_handler 4 [7] 9) 9 = subscribe_handler 4 [7] 9 ∧
      (9 : Nat) ∉ ([7] : List Nat) ∧ ([7] : List Nat).length < 4 ∧
      (subscribe_handler 4 (subscribe_handler 4 [7] 9) 9).count 9 = 1 :=
  ⟨subscribe_idempotent.1 4 [7] 9, by decide, by decide,
    subscribe_idempotent.2 4 [7] 9 (by decide) (by decide)⟩

/-- C10: the Subscribe arm of the Volume handler never reads `msg.val`: two
Subscribe messages from the same connection that differ only in `val` leave
the server state (subscriber list and connection table alike) identical. -/
theorem subscribe_ignores_val (cap : Nat) (ctx : IPC_Server_Context) (client_fd : Nat)
    (v1 v2 : Nat) :
    handle_volume cap ctx client_fd ⟨.Subscribe, v1⟩ =
      handle_volume cap ctx client_fd ⟨.Subscribe, v2⟩ := rfl

/-! ## Swap-remove and reverse-sweep lemmas -/

theorem unordered_remove_length (l : List Nat) (i : Nat) (h : i < l.length) :
    (unordered_remove l i).length = l.length - 1 := by
  have hne : l ≠ [] := List.ne_nil_of_length_pos (by omega)
  obtain ⟨x, hx⟩ : ∃ x, l.getLast? = some x :=
    ⟨l.getLast hne, List.getLast?_eq_getLast l hne⟩
  simp only [unordered_remove, hx]
  simp

theorem unordered_remove_take (l : List Nat) (i : Nat) (h : i < l.length) :
    (unordered_remove l i).take i = l.take i := by
  have hne : l ≠ [] := List.ne_nil_of_length_pos (by omega)
  obtain ⟨x, hx⟩ : ∃ x, l.getLast? = some x :=
    ⟨l.getLast hne, List.getLast?_eq_getLast l hne⟩
  simp only [unordered_remove, hx]
  rw [List.dropLast_eq_take, List.length_set]
  rw [List.take_take, Nat.min_eq_left (by omega)]
  rw [List.set_take, List.set_eq_of_length_le]
  rw [List.length_take]
  omega

theorem unordered_remove_stable (l : List Nat) (i j : Nat) (hi : i < l.length)
    (hj : j < i) :
    (unordered_remove l i)[j]? = l[j]? := by
  rw [← List.getElem?_take_of_lt (l := unordered_remove l i) hj,
    unordered_remove_take l i hi, List.getElem?_take_of_lt hj]

theorem unordered_remove_drop_subset (l : List Nat) (i : Nat) (hi : i < l.length) :
    ∀ y ∈ (unordered_remove l i).drop i, y ∈ l.drop (i + 1) := by
  intro y hy
  have hne : l ≠ [] := List.ne_nil_of_length_pos (by omega)
  obtain ⟨x, hx⟩ : ∃ x, l.getLast? = some x :=
    ⟨l.getLast hne, List.getLast?_eq_getLast l hne⟩
  simp only [unordered_remove, hx] at hy
  by_cases hlast : l.length ≤ i + 1
  · rw [List.drop_eq_nil_of_le (by simp; omega)] at hy
    simp at hy
  · have hi1 : i + 1 < l.length := by omega
    have hset : l.set i x = l.take i ++ x :: l.drop (i + 1) := by
      rw [List.set_eq_take_append_cons_drop, if_pos hi]
    rw [hset, List.dropLast_append_cons] at hy
    have hD : l.drop (i + 1) ≠ [] := by
      intro he
      rw [List.drop_eq_nil_iff] at he
      omega
    rw [List.dropLast_cons_of_ne_nil hD] at hy
    rw [List.drop_left' (by rw [List.length_take]; omega)] at hy
    rcases List.mem_cons.mp hy with rfl | hy2
    · have hxD : (l.drop (i + 1)).getLast? = some y := by
        have : (l.take (i + 1) ++ l.drop (i + 1)).getLast? = some y := by
          rw [List.take_append_drop]; exact hx
        rw [List.getLast?_append, List.getLast?_eq_getLast _ hD, Option.or_some] at this
        rw [List.getLast?_eq_getLast _ hD]
        exact this
      exact List.mem_of_getLast?_eq_some hxD
    · exact (List.dropLast_sublist _).subset hy2

theorem reverse_sweep_visited (p : Nat → Bool) :
    ∀ (n : Nat) (l : List Nat), n ≤ l.length →
      (reverse_sweep p l n).visited = (l.take n).reverse := by
  intro n
  induction n with
  | zero => intro l _; rfl
  | succ n ih =>
    intro l h
    have hn : n < l.length := by omega
    have hx : l[n]? = some l[n] := List.getElem?_eq_getElem hn
    have hsucc : l.take (n + 1) = l.take n ++ [l[n]] := by
      rw [List.take_succ, hx]; rfl
    by_cases hp : p l[n]
    · have hur : n ≤ (unordered_remove l n).length := by
        rw [unordered_remove_length l n hn]; omega
      simp only [reverse_sweep, hx, hp, if_true]
      rw [ih (unordered_remove l n) hur, unordered_remove_take l n hn, hsucc,
        List.reverse_append]
      simp
    · simp only [reverse_sweep, hx, hp, if_false]
      rw [ih l (by omega), hsucc, List.reverse_append]
      simp

theorem reverse_sweep_removed (p : Nat → Bool) :
    ∀ (n : Nat) (l : List Nat),
      (reverse_sweep p l n).removed = (reverse_sweep p l n).visited.filter p := by
  intro n
  induction n with
  | zero => intro l; rfl
  | succ n ih =>
    intro l
    cases hx : l[n]? with
    | none => simp [reverse_sweep, hx]
    | some x =>
      by_cases hp : p x <;> simp [reverse_sweep, hx, hp, ih]

theorem reverse_sweep_remaining (p : Nat → Bool) :
    ∀ (n : Nat) (l : List Nat), n ≤ l.length →
      (∀ y ∈ l.drop n, p y = false) →
      ∀ y ∈ (reverse_sweep p l n).remaining, p y = false := by
  intro n
  induction n with
  | zero =>
    intro l _ hlive y hy
    exact hlive y (by simpa using hy)
  | succ n ih =>
    intro l h hlive y hy
    have hn : n < l.length := by omega
    have hx : l[n]? = some l[n] := List.getElem?_eq_getElem hn
    have hdropn : l.drop n = l[n] :: l.drop (n + 1) := List.drop_eq_getElem_cons hn
    by_cases hp : p l[n]
    · simp only [reverse_sweep, hx, hp, if_true] at hy
      have hur : n ≤ (unordered_remove l n).length := by
        rw [unordered_remove_length l n hn]; omega
      refine ih (unordered_remove l n) hur ?_ y hy
      intro z hz
      exact hlive z (unordered_remove_drop_subset l n hn z hz)
    · simp only [reverse_sweep, hx, hp, if_false] at hy
      refine ih l (by omega) ?_ y hy
      intro z hz
      rw [hdropn] at hz
      rcases List.mem_cons.mp hz with rfl | hz2
      · simp only [Bool.not_eq_true] at hp
        exact hp
      · exact hlive z hz2

/-! ## Claim theorems: reverse iteration with swap-remove -/

/-- C8: removing a connection mid-iteration with `sa.unordered_remove` under
the `#reverse` traversal is safe: a swap-remove at slot `i` never shifts any
slot below `i` — exactly the not-yet-visited slots of the reverse traversal —
and consequently the sweep visits every entry of the table exactly once, in
reverse order, removals included. -/
theorem reverse_sweep_safe_removal :
    (∀ (l : List Nat) (i j : Nat), i < l.length → j < i →
        (unordered_remove l i)[j]? = l[j]?) ∧
      (∀ (p : Nat → Bool) (l : List Nat),
        (reverse_sweep p l l.length).visited = l.reverse) := by
  constructor
  · exact fun l i j hi hj => unordered_remove_stable l i j hi hj
  · intro p l
    have h := reverse_sweep_visited p l.length l le_rfl
    rwa [List.take_length] at h

theorem reverse_sweep_safe_removal_witness :
    ((2 : Nat) < ([1, 2, 3] : List Nat).length ∧ (0 : Nat) < 2 ∧
        (unordered_remove [1, 2, 3] 2)[0]? = ([1, 2, 3] : List Nat)[0]?) ∧
      (reverse_sweep (fun f => f % 2 == 0) [1, 2, 3, 4, 5] 5).visited =
        ([1, 2, 3, 4, 5] : List Nat).reverse :=
  ⟨⟨by decide, by decide, reverse_sweep_safe_removal.1 [1, 2, 3] 2 0 (by decide) (by decide)⟩,
    reverse_sweep_safe_removal.2 (fun f => f % 2 == 0) [1, 2, 3, 4, 5]⟩

/-! ## Pending-removal cleanup lemmas -/

theorem foldl_remove_subscriber_subset :
    ∀ (rs subs : List Nat), ∀ y ∈ rs.foldl IPC_Server_remove_volume_subscriber subs,
      y ∈ subs := by
  intro rs
  induction rs with
  | nil =>
    intro subs y hy
    simpa using hy
  | cons r rt ih =>
    intro subs y hy
    simp only [List.foldl_cons] at hy
    have h2 := ih (IPC_Server_remove_volume_subscriber subs r) y hy
    simp only [IPC_Server_remove_volume_subscriber] at h2
    exact (List.mem_filter.mp h2).1

theorem foldl_remove_subscriber_not_mem :
    ∀ (rs subs : List Nat) (fd : Nat), fd ∈ rs →
      fd ∉ rs.foldl IPC_Server_remove_volume_subscriber subs := by
  intro rs
  induction rs with
  | nil =>
    intro subs fd h
    simp at h
  | cons r rt ih =>
    intro subs fd h hmem
    simp only [List.foldl_cons] at hmem
    rcases List.mem_cons.mp h with rfl | hrt
    · have hsub := foldl_remove_subscriber_subset rt
        (IPC_Server_remove_volume_subscriber subs fd) fd hmem
      simp [IPC_Server_remove_volume_subscriber, List.mem_filter] at hsub
    · exact ih (IPC_Server_remove_volume_subscriber subs r) fd hrt hmem

/-- C6: every connection handle placed on the pending-removal list during a
poll cycle is, before the next poll call, out of the connection table, out of
the volume topic's subscriber set, and among the descriptors handed to
`linux.close`; the pending-removal list itself ends the cycle empty. -/
theorem pending_removal_cleanup (read_of : Nat → ReadResult) (ctx : IPC_Server_Context)
    (fd : Nat)
    (hfd : fd ∈ (reverse_sweep (fun f => is_dead (read_of f)) ctx._clients
        ctx._clients.length).removed) :
    fd ∉ (run_poll_cycle_removals read_of ctx).1._clients ∧
      fd ∉ (run_poll_cycle_removals read_of ctx).1._volume_subscribers ∧
      fd ∈ (run_poll_cycle_removals read_of ctx).2 ∧
      (run_poll_cycle_removals read_of ctx).1._removed_clients = [] := by
  have hp : is_dead (read_of fd) = true := by
    rw [reverse_sweep_removed] at hfd
    exact (List.mem_filter.mp hfd).2
  refine ⟨?_, ?_, ?_, rfl⟩
  · intro hmem
    have hlive := reverse_sweep_remaining (fun f => is_dead (read_of f))
      ctx._clients.length ctx._clients le_rfl
      (by intro y hy; rw [List.drop_length] at hy; simp at hy) fd hmem
    simp [hp] at hlive
  · exact foldl_remove_subscriber_not_mem
      (ctx._removed_clients ++
        (reverse_sweep (fun f => is_dead (read_of f)) ctx._clients
          ctx._clients.length).removed)
      ctx._volume_subscribers fd (List.mem_append_right _ hfd)
  · exact List.mem_append_right _ hfd

theorem pending_removal_cleanup_witness :
    (5 : Nat) ∈ (reverse_sweep (fun f => is_dead ((fun _ => ReadResult.bytes []) f))
        (IPC_Server_Context.mk [5] [] [5])._clients
        (IPC_Server_Context.mk [5] [] [5])._clients.length).removed ∧
      ((5 : Nat) ∉ (run_poll_cycle_removals (fun _ => ReadResult.bytes [])
          (IPC_Server_Context.mk [5] [] [5])).1._clients ∧
        (5 : Nat) ∉ (run_poll_cycle_removals (fun _ => ReadResult.bytes [])
          (IPC_Server_Context.mk [5] [] [5])).1._volume_subscribers ∧
        (5 : Nat) ∈ (run_poll_cycle_removals (fun _ => ReadResult.bytes [])
          (IPC_Server_Context.mk [5] [] [5])).2 ∧
        (run_poll_cycle_removals (fun _ => ReadResult.bytes [])
          (IPC_Server_Context.mk [5] [] [5])).1._removed_clients = []) :=
  ⟨by decide,
    pending_removal_cleanup (fun _ => ReadResult.bytes [])
      (IPC_Server_Context.mk [5] [] [5]) 5 (by decide)⟩

end Mixd
